import Mathlib

/-!
Verification of the Space Station Cargo Management System.

The repository ships a React front end (`src/components/Items.tsx`,
`src/pages/CargoPlacement.tsx`, `src/pages/Rearrangement.tsx`, and the
waste-management page) that calls a FastAPI back end over HTTP.  The back
end — the Cargo Placement & Space Management Engine described by the
specification — is referenced by the README and Dockerfile but its Python
sources are not present in the repository snapshot, so the engine is
modelled here from the specification's words; the front-end computations
(`handleSimulate`, the Rearrangement space-usage percentage) are embedded
directly from the TypeScript sources.
-/

namespace Cargo

/-- Modelled from the spec (§4.1 Geometry Model; the engine's geometry
code is not in the repository): a 3D point with natural coordinates.
`x` is the width axis, `y` the depth axis (the access axis: the open face
is the plane `y = 0`), `z` the height axis. -/
structure Coord where
  x : Nat
  y : Nat
  z : Nat
deriving DecidableEq, Repr

/-- Modelled from the spec (§4.1, §3 Item): an axis-aligned box given by
its start corner and end corner (`fin` stands for the spec's
"end corner"; `end` is reserved in Lean). -/
structure Box where
  start : Coord
  fin : Coord
deriving DecidableEq, Repr

/-- Modelled from the spec (§4.1): overlap test between two boxes —
closed-interval overlap on all three axes where sharing a face is not an
overlap, i.e. strict interval intersection on every axis. -/
def overlaps (a b : Box) : Bool :=
  decide (a.start.x < b.fin.x) && decide (b.start.x < a.fin.x) &&
  decide (a.start.y < b.fin.y) && decide (b.start.y < a.fin.y) &&
  decide (a.start.z < b.fin.z) && decide (b.start.z < a.fin.z)

theorem overlaps_comm (a b : Box) : overlaps a b = overlaps b a := by
  simp only [overlaps]
  by_cases h1 : a.start.x < b.fin.x <;>
  by_cases h2 : b.start.x < a.fin.x <;>
  by_cases h3 : a.start.y < b.fin.y <;>
  by_cases h4 : b.start.y < a.fin.y <;>
  by_cases h5 : a.start.z < b.fin.z <;>
  by_cases h6 : b.start.z < a.fin.z <;>
  simp [h1, h2, h3, h4, h5, h6]

/-- Modelled from the spec (§4.1): volume of a box. -/
def boxVolume (b : Box) : Nat :=
  (b.fin.x - b.start.x) * (b.fin.y - b.start.y) * (b.fin.z - b.start.z)

/-- Modelled from the spec (§3 Item): item status. -/
inductive Status where
  | unplaced
  | stowed
  | inTransit
  | waste
  | disposed
deriving DecidableEq, Repr

/-- Modelled from the spec (§3 Item; the engine's data model is not in
the repository): a cargo item.  Dimensions, mass and priority follow the
README's integer sample records; `expiryDate` is a simulated-day number;
`containerId`/`box` are set exactly while the item physically occupies
space in a container. -/
@[ext]
structure Item where
  itemId : Nat
  name : String
  width : Nat
  depth : Nat
  height : Nat
  mass : Nat
  priority : Nat
  expiryDate : Option Nat
  usageLimit : Option Nat
  preferredZone : Option String
  status : Status
  containerId : Option Nat
  box : Option Box
deriving DecidableEq, Repr

/-- Modelled from the spec (§3 Container): a container with a zone tag
and dimensions; the open (access) face is the plane `y = 0`. -/
structure Container where
  containerId : Nat
  zone : String
  width : Nat
  depth : Nat
  height : Nat
deriving DecidableEq, Repr

/-- Modelled from the spec (§4.1): containment test — the box lies fully
inside the container's bounds. -/
def insideContainer (c : Container) (b : Box) : Bool :=
  decide (b.start.x ≤ b.fin.x) && decide (b.start.y ≤ b.fin.y) &&
  decide (b.start.z ≤ b.fin.z) &&
  decide (b.fin.x ≤ c.width) && decide (b.fin.y ≤ c.depth) &&
  decide (b.fin.z ≤ c.height)

/-- Modelled from the spec (§3 ReturnManifest): an undocking container id,
a target departure time, a weight budget, and the ids of the selected
waste items. -/
structure ReturnManifest where
  undockingContainerId : Nat
  undockingDate : Nat
  maxWeight : Nat
  itemIds : List Nat
deriving DecidableEq, Repr

/-- Modelled from the spec (§6 getLogs): an entry of the append-only
event stream emitted by every state-changing operation. -/
structure LogEvent where
  opKind : String
  affectedIds : List Nat
deriving DecidableEq, Repr

/-- Modelled from the spec (§3, §5: the engine owns all container/item
state plus the simulation clock, pending return plans and the event
stream). -/
structure EngineState where
  items : List Item
  containers : List Container
  currentDay : Nat
  manifests : List ReturnManifest
  events : List LogEvent
deriving DecidableEq, Repr

/-- The request shape sent by the Items UI to `/simulate/day`
(src/components/Items.tsx, `SimulationRequest`). -/
structure SimulationRequest where
  numOfDays : Nat
  itemsToBeUsedPerDay : List (List Nat)
deriving DecidableEq, Repr

/-- Modelled from the spec (§7 Error taxonomy). -/
inductive ErrKind where
  | noFeasiblePlacement
  | itemNotFound
  | containerNotFound
  | invalidGeometry
  | overlapViolation
deriving DecidableEq, Repr

/-- Point update of the item with a given id inside the catalogue
(models the engine's per-item state updates; with unique ids exactly one
record changes). -/
def updateItem (l : List Item) (iid : Nat) (f : Item → Item) : List Item :=
  l.map (fun it => if it.itemId = iid then f it else it)

/-- The occupancy entry an item contributes to container `cid`:
`some (id, box)` iff the item currently holds a box inside that
container. -/
def entryOf (cid : Nat) (it : Item) : Option (Nat × Box) :=
  if it.containerId = some cid then it.box.map (fun b => (it.itemId, b)) else none

/-- Modelled from the spec (§4.2 Space Index; the engine's occupancy
structure is not in the repository): the per-container set of occupied
boxes, tagged with their owning item ids. -/
def occEntries (l : List Item) (cid : Nat) : List (Nat × Box) :=
  l.filterMap (entryOf cid)

/-- Whether the candidate box collides with no occupied box of the
container other than boxes owned by `iid` itself. -/
def freeFor (l : List Item) (cid iid : Nat) (b : Box) : Bool :=
  (occEntries l cid).all (fun e => decide (e.1 = iid) || !overlaps b e.2)

/-- Modelled from the spec (§4.2): `canPlace` — true iff the candidate
box is contained in the container bounds and overlaps no
currently-occupied box (the candidate item's own current box excepted,
for re-placement). -/
def canPlace (s : EngineState) (cid iid : Nat) (b : Box) : Bool :=
  match s.containers.find? (fun c => c.containerId = cid) with
  | none => false
  | some c => insideContainer c b && freeFor s.items cid iid b

/-- Modelled from the spec (§3 Placement, §4.3 step 3): commit a
placement — the item becomes stowed at the chosen box in the chosen
container and a placement event is emitted. -/
def commitPlace (s : EngineState) (iid cid : Nat) (b : Box) : EngineState :=
  { s with
    items := updateItem s.items iid
      (fun it => { it with status := Status.stowed, containerId := some cid, box := some b })
    events := ⟨"placement", [iid]⟩ :: s.events }

theorem entryOf_fst_eq (cid : Nat) (it : Item) (e : Nat × Box)
    (h : entryOf cid it = some e) : e.1 = it.itemId := by
  unfold entryOf at h
  split at h
  · cases hb : it.box with
    | none => rw [hb] at h; simp at h
    | some b => rw [hb] at h; simp at h; rw [← h]
  · simp at h

theorem mem_occEntries_fst {l : List Item} {cid : Nat} {e : Nat × Box}
    (h : e ∈ occEntries l cid) : e.1 ∈ l.map (·.itemId) := by
  unfold occEntries at h
  rcases List.mem_filterMap.mp h with ⟨it, hmem, hent⟩
  rw [entryOf_fst_eq cid it e hent]
  exact List.mem_map_of_mem _ hmem

theorem updateItem_map_id (l : List Item) (iid : Nat) (f : Item → Item)
    (hf : ∀ it, (f it).itemId = it.itemId) :
    (updateItem l iid f).map (·.itemId) = l.map (·.itemId) := by
  induction l with
  | nil => rfl
  | cons a l ih =>
      simp only [updateItem, List.map_cons] at ih ⊢
      congr 1
      split <;> simp [hf]

theorem updateItem_eq_of_not_mem (l : List Item) (iid : Nat) (f : Item → Item)
    (h : iid ∉ l.map (·.itemId)) : updateItem l iid f = l := by
  induction l with
  | nil => rfl
  | cons a l ih =>
      simp only [List.map_cons, List.mem_cons] at h
      push_neg at h
      simp only [updateItem, List.map_cons]
      rw [if_neg (fun hc => h.1 hc.symm)]
      have := ih h.2
      simp only [updateItem] at this
      rw [this]

theorem find?_updateItem_ne (l : List Item) (iid j : Nat) (f : Item → Item)
    (hf : ∀ it, (f it).itemId = it.itemId) (hne : j ≠ iid) :
    (updateItem l iid f).find? (fun it => it.itemId = j) =
      (l.find? (fun it => it.itemId = j)).map
        (fun it => if it.itemId = iid then f it else it) := by
  induction l with
  | nil => rfl
  | cons a l ih =>
      by_cases ha : a.itemId = iid
      · have h1 : updateItem (a :: l) iid f = f a :: updateItem l iid f := by
          simp [updateItem, ha]
        rw [h1]
        have hfa : ¬ ((f a).itemId = j) := by
          rw [hf a, ha]; exact fun h => hne h.symm
        have haj : ¬ (a.itemId = j) := by
          rw [ha]; exact fun h => hne h.symm
        rw [List.find?_cons_of_neg _ (by simpa using hfa),
            List.find?_cons_of_neg _ (by simpa using haj)]
        exact ih
      · have h1 : updateItem (a :: l) iid f = a :: updateItem l iid f := by
          simp [updateItem, ha]
        rw [h1]
        by_cases haj : a.itemId = j
        · rw [List.find?_cons_of_pos _ (by simpa using haj),
              List.find?_cons_of_pos _ (by simpa using haj)]
          simp [ha]
        · rw [List.find?_cons_of_neg _ (by simpa using haj),
              List.find?_cons_of_neg _ (by simpa using haj)]
          exact ih

theorem find?_eq_of_mem_nodup {l : List Item} {it : Item}
    (hnd : (l.map (·.itemId)).Nodup) (hmem : it ∈ l) :
    l.find? (fun x => x.itemId = it.itemId) = some it := by
  induction l with
  | nil => cases hmem
  | cons a l ih =>
      simp only [List.map_cons, List.nodup_cons] at hnd
      rcases List.mem_cons.mp hmem with h | h
      · subst h
        simp [List.find?]
      · have hne : a.itemId ≠ it.itemId := by
          intro hc
          exact hnd.1 (hc ▸ List.mem_map_of_mem (·.itemId) h)
        simp only [List.find?, hne, decide_False]
        exact ih hnd.2 h

theorem updateItem_cons (a : Item) (l : List Item) (iid : Nat) (f : Item → Item) :
    updateItem (a :: l) iid f =
      (if a.itemId = iid then f a else a) :: updateItem l iid f := rfl

theorem occEntries_cons_some {a : Item} {cid : Nat} {e0 : Nat × Box}
    (l : List Item) (h : entryOf cid a = some e0) :
    occEntries (a :: l) cid = e0 :: occEntries l cid := by
  simp [occEntries, List.filterMap_cons, h]

theorem occEntries_cons_none {a : Item} {cid : Nat}
    (l : List Item) (h : entryOf cid a = none) :
    occEntries (a :: l) cid = occEntries l cid := by
  simp [occEntries, List.filterMap_cons, h]

theorem occEntries_map_sublist (f : Item → Item) (l : List Item) (cid : Nat)
    (hf : ∀ it ∈ l, entryOf cid (f it) = entryOf cid it ∨ entryOf cid (f it) = none) :
    (occEntries (l.map f) cid).Sublist (occEntries l cid) := by
  induction l with
  | nil => simp [occEntries]
  | cons a l ih =>
      have ha := hf a (List.mem_cons_self a l)
      have ih' := ih (fun it h => hf it (List.mem_cons_of_mem a h))
      rw [List.map_cons]
      rcases ha with ha | ha
      · cases h : entryOf cid a with
        | none =>
            rw [occEntries_cons_none _ (ha.trans h), occEntries_cons_none _ h]
            exact ih'
        | some e =>
            rw [occEntries_cons_some _ (ha.trans h), occEntries_cons_some _ h]
            exact ih'.cons₂ e
      · rw [occEntries_cons_none _ ha]
        cases h : entryOf cid a with
        | none => rw [occEntries_cons_none _ h]; exact ih'
        | some e => rw [occEntries_cons_some _ h]; exact ih'.cons e

theorem occEntries_map_congr (f : Item → Item) (l : List Item) (cid : Nat)
    (hf : ∀ it ∈ l, entryOf cid (f it) = entryOf cid it) :
    occEntries (l.map f) cid = occEntries l cid := by
  induction l with
  | nil => rfl
  | cons a l ih =>
      have ha := hf a (List.mem_cons_self a l)
      have ih' := ih (fun it h => hf it (List.mem_cons_of_mem a h))
      rw [List.map_cons]
      cases h : entryOf cid a with
      | none =>
          rw [occEntries_cons_none _ (ha.trans h), occEntries_cons_none _ h]
          exact ih'
      | some e =>
          rw [occEntries_cons_some _ (ha.trans h), occEntries_cons_some _ h, ih']

theorem occEntries_updateItem_sublist (l : List Item) (iid : Nat) (g : Item → Item)
    (cid : Nat)
    (hg : ∀ it, entryOf cid (g it) = entryOf cid it ∨ entryOf cid (g it) = none) :
    (occEntries (updateItem l iid g) cid).Sublist (occEntries l cid) := by
  apply occEntries_map_sublist
  intro it _
  by_cases h : it.itemId = iid
  · rw [if_pos h]; exact hg it
  · rw [if_neg h]; left; rfl

/-- The per-item effect of committing a placement into container `cid`
at box `b`. -/
def placeFn (cid : Nat) (b : Box) (it : Item) : Item :=
  { it with status := Status.stowed, containerId := some cid, box := some b }

theorem entryOf_placeFn_same (cid : Nat) (b : Box) (it : Item) :
    entryOf cid (placeFn cid b it) = some (it.itemId, b) := by
  simp [entryOf, placeFn]

theorem entryOf_placeFn_other (cid' cid : Nat) (b : Box) (it : Item)
    (h : cid' ≠ cid) : entryOf cid' (placeFn cid b it) = none := by
  simp only [entryOf, placeFn]
  rw [if_neg]
  simp only [Option.some.injEq]
  exact fun hc => h hc.symm

theorem mem_occEntries_updateItem_place (l : List Item) (iid cid : Nat) (b : Box) :
    ∀ e ∈ occEntries (updateItem l iid (placeFn cid b)) cid,
      e = (iid, b) ∨ (e ∈ occEntries l cid ∧ e.1 ≠ iid) := by
  induction l with
  | nil => intro e he; simp [occEntries, updateItem] at he
  | cons a l ih =>
      intro e he
      rw [updateItem_cons] at he
      by_cases ha : a.itemId = iid
      · rw [if_pos ha] at he
        rw [occEntries_cons_some _ (entryOf_placeFn_same cid b a)] at he
        rcases List.mem_cons.mp he with h | h
        · left; rw [h, ha]
        · rcases ih e h with h1 | h1
          · left; exact h1
          · right
            refine ⟨?_, h1.2⟩
            cases h0 : entryOf cid a with
            | none => rw [occEntries_cons_none _ h0]; exact h1.1
            | some e0 =>
                rw [occEntries_cons_some _ h0]
                exact List.mem_cons_of_mem e0 h1.1
      · rw [if_neg ha] at he
        cases h0 : entryOf cid a with
        | none =>
            rw [occEntries_cons_none _ h0] at he
            rcases ih e he with h | h
            · left; exact h
            · right
              exact ⟨by rw [occEntries_cons_none _ h0]; exact h.1, h.2⟩
        | some e0 =>
            rw [occEntries_cons_some _ h0] at he
            rcases List.mem_cons.mp he with h | h
            · right
              refine ⟨by rw [occEntries_cons_some _ h0]; exact h ▸ List.mem_cons_self e0 _, ?_⟩
              rw [h, entryOf_fst_eq cid a e0 h0]
              exact ha
            · rcases ih e h with h1 | h1
              · left; exact h1
              · right
                exact ⟨by rw [occEntries_cons_some _ h0]; exact List.mem_cons_of_mem e0 h1.1, h1.2⟩

/-- Non-overlap of the boxes of two occupancy entries. -/
def noOv (e1 e2 : Nat × Box) : Prop := overlaps e1.2 e2.2 = false

instance : DecidableRel noOv := fun e1 e2 =>
  inferInstanceAs (Decidable (overlaps e1.2 e2.2 = false))

theorem noOv_symm : Symmetric noOv := by
  intro e1 e2 h
  unfold noOv at *
  rw [overlaps_comm]
  exact h

theorem pairwise_occEntries_updateItem_place (l : List Item) (iid cid : Nat) (b : Box)
    (hnd : (l.map (·.itemId)).Nodup)
    (hpw : (occEntries l cid).Pairwise noOv)
    (hfree : ∀ e ∈ occEntries l cid, e.1 ≠ iid → overlaps b e.2 = false) :
    (occEntries (updateItem l iid (placeFn cid b)) cid).Pairwise noOv := by
  induction l with
  | nil => simp [occEntries, updateItem]
  | cons a l ih =>
      simp only [List.map_cons, List.nodup_cons] at hnd
      obtain ⟨hna, hndl⟩ := hnd
      rw [updateItem_cons]
      by_cases ha : a.itemId = iid
      · rw [if_pos ha,
            occEntries_cons_some _ (entryOf_placeFn_same cid b a)]
        have hlid : iid ∉ l.map (·.itemId) := ha ▸ hna
        rw [updateItem_eq_of_not_mem l iid _ hlid]
        refine List.pairwise_cons.mpr ⟨?_, ?_⟩
        · intro e he
          have hefst := mem_occEntries_fst he
          have hne : e.1 ≠ iid := fun hc => hlid (hc ▸ hefst)
          have hmem : e ∈ occEntries (a :: l) cid := by
            cases h0 : entryOf cid a with
            | none => rw [occEntries_cons_none _ h0]; exact he
            | some e0 =>
                rw [occEntries_cons_some _ h0]; exact List.mem_cons_of_mem e0 he
          exact hfree e hmem hne
        · cases h0 : entryOf cid a with
          | none => rw [occEntries_cons_none _ h0] at hpw; exact hpw
          | some e0 => rw [occEntries_cons_some _ h0] at hpw; exact hpw.of_cons
      · rw [if_neg ha]
        cases h0 : entryOf cid a with
        | none =>
            rw [occEntries_cons_none _ h0]
            rw [occEntries_cons_none _ h0] at hpw
            refine ih hndl hpw (fun e he hne => ?_)
            exact hfree e (by rw [occEntries_cons_none _ h0]; exact he) hne
        | some e0 =>
            rw [occEntries_cons_some _ h0]
            rw [occEntries_cons_some _ h0] at hpw
            obtain ⟨hh, ht⟩ := List.pairwise_cons.mp hpw
            have hfree' : ∀ e ∈ occEntries l cid, e.1 ≠ iid →
                overlaps b e.2 = false := fun e he hne =>
              hfree e (by rw [occEntries_cons_some _ h0];
                          exact List.mem_cons_of_mem e0 he) hne
            refine List.pairwise_cons.mpr ⟨?_, ih hndl ht hfree'⟩
            intro e he
            rcases mem_occEntries_updateItem_place l iid cid b e he with h | h
            · have he0mem : e0 ∈ occEntries (a :: l) cid := by
                rw [occEntries_cons_some _ h0]; exact List.mem_cons_self e0 _
              have he0fst : e0.1 = a.itemId := entryOf_fst_eq cid a e0 h0
              have hb0 : overlaps b e0.2 = false :=
                hfree e0 he0mem (by rw [he0fst]; exact ha)
              rw [h]
              show overlaps e0.2 (iid, b).2 = false
              rw [overlaps_comm]
              exact hb0
            · exact hh e h.1

theorem inside_occEntries_updateItem_place (l : List Item) (iid cid : Nat) (b : Box)
    (c : Container)
    (hin : ∀ e ∈ occEntries l cid, insideContainer c e.2 = true)
    (hb : insideContainer c b = true) :
    ∀ e ∈ occEntries (updateItem l iid (placeFn cid b)) cid,
      insideContainer c e.2 = true := by
  intro e he
  rcases mem_occEntries_updateItem_place l iid cid b e he with h | h
  · rw [h]; exact hb
  · exact hin e h.1

/-- Modelled from the spec (§4.3 step 2): the six axis-permutation
orientations of a rectangular item, deduplicated when dimensions tie. -/
def orientations (it : Item) : List (Nat × Nat × Nat) :=
  [(it.width, it.depth, it.height), (it.width, it.height, it.depth),
   (it.depth, it.width, it.height), (it.depth, it.height, it.width),
   (it.height, it.width, it.depth), (it.height, it.depth, it.width)].dedup

/-- A candidate box with the given start corner and rotated dimensions
(spec §3 Item invariant: end = start + rotated-dimensions). -/
def makeBox (p : Coord) (w d h : Nat) : Box :=
  ⟨p, ⟨p.x + w, p.y + d, p.z + h⟩⟩

/-- Modelled from the spec (§4.3 step 2, step 5): candidate start corners
of a shelf/guillotine scan, corners nearest the access face (the plane
`y = 0`) first, then sliding along the width axis, then the height
axis. -/
def startCorners (c : Container) (w d h : Nat) : List Coord :=
  if w ≤ c.width ∧ d ≤ c.depth ∧ h ≤ c.height then
    (List.range (c.depth - d + 1)).flatMap (fun y =>
      (List.range (c.width - w + 1)).flatMap (fun x =>
        (List.range (c.height - h + 1)).map (fun z => ⟨x, y, z⟩)))
  else []

/-- Modelled from the spec (§4.3 step 1): remaining free volume of a
container. -/
def freeVolume (s : EngineState) (c : Container) : Nat :=
  c.width * c.depth * c.height -
    ((occEntries s.items c.containerId).map (fun e => boxVolume e.2)).sum

/-- Modelled from the spec (§4.3 step 1): zone-preference rank — exact
match ranks above no-preference ranks above mismatch. -/
def zoneRank (it : Item) (c : Container) : Nat :=
  match it.preferredZone with
  | some z => if c.zone = z then 0 else 2
  | none => 1

/-- Modelled from the spec (§4.3 step 1): candidate container order —
zone match, then descending remaining free volume, then container id. -/
def containerBefore (s : EngineState) (it : Item) (c1 c2 : Container) : Bool :=
  if zoneRank it c1 ≠ zoneRank it c2 then decide (zoneRank it c1 < zoneRank it c2)
  else if freeVolume s c1 ≠ freeVolume s c2 then
    decide (freeVolume s c2 < freeVolume s c1)
  else decide (c1.containerId ≤ c2.containerId)

def rankedContainers (s : EngineState) (it : Item) : List Container :=
  s.containers.insertionSort (fun c1 c2 => containerBefore s it c1 c2 = true)

/-- Modelled from the spec (§4.3 step 2): the planner's candidate
(container, box) sequence in search order. -/
def candidatePlacements (s : EngineState) (it : Item) : List (Nat × Box) :=
  (rankedContainers s it).flatMap (fun c =>
    (orientations it).flatMap (fun o =>
      (startCorners c o.1 o.2.1 o.2.2).map (fun p =>
        (c.containerId, makeBox p o.1 o.2.1 o.2.2))))

/-- Modelled from the spec (§4.3 step 3; the planner's code is not in the
repository): first-fit placement of one unplaced item — the first
feasible candidate passing `canPlace` is committed; if none is feasible
the item remains unplaced and the state is returned unchanged
(`NoFeasiblePlacement` is reported per item). -/
def planItem (s : EngineState) (iid : Nat) : EngineState :=
  match s.items.find? (fun it => it.itemId = iid) with
  | none => s
  | some it =>
      if it.status = Status.unplaced then
        match (candidatePlacements s it).find? (fun p => canPlace s p.1 iid p.2) with
        | none => s
        | some p => commitPlace s iid p.1 p.2
      else s

/-- Modelled from the spec (§6 placeItem, §7; the engine's code is not in
the repository, only its caller `apiService.placeItem`): the manual
placement override — it must still pass `canPlace`, and an attempted
colliding placement is rejected with `OverlapViolation`. -/
def placeItemOp (s : EngineState) (iid cid : Nat) (b : Box) :
    Except ErrKind EngineState :=
  match s.items.find? (fun it => it.itemId = iid) with
  | none => Except.error ErrKind.itemNotFound
  | some _ =>
      match s.containers.find? (fun c => c.containerId = cid) with
      | none => Except.error ErrKind.containerNotFound
      | some _ =>
          if canPlace s cid iid b then Except.ok (commitPlace s iid cid b)
          else Except.error ErrKind.overlapViolation

/-- `placeItemOp` as observed by a stateful caller: on failure the
original state is kept alongside the typed error. -/
def runPlaceItem (s : EngineState) (iid cid : Nat) (b : Box) :
    EngineState × Option ErrKind :=
  match placeItemOp s iid cid b with
  | Except.ok s' => (s', none)
  | Except.error e => (s, some e)

/-- Modelled from the spec (§4.5 Identification; the engine's code is not
in the repository, only its caller `apiService.identifyWasteItems`):
an item is waste iff its expiry date is at or before the current
simulated day, or its usage limit has reached zero. -/
def isWasteItem (day : Nat) (it : Item) : Bool :=
  (match it.expiryDate with
   | some d => decide (d ≤ day)
   | none => false) ||
  decide (it.usageLimit = some 0)

def identifyWasteItems (s : EngineState) : List Item :=
  s.items.filter (fun it => isWasteItem s.currentDay it)

/-- The per-item effect of executing a retrieval on the target: status
becomes in-transit, the usage counter is decremented (clamped at zero)
and the item is marked waste if usage reaches zero; the item's box is
vacated. -/
def retrieveFn (it : Item) : Item :=
  let u' := it.usageLimit.map (fun u => u - 1)
  { it with usageLimit := u',
            status := if u' = some 0 then Status.waste else Status.inTransit,
            containerId := none, box := none }

/-- Modelled from the spec (§4.4 Retrieval Planner; the engine's code is
not in the repository, only its caller `apiService.retrieveItem`):
executing a retrieval on a stowed item.  An unknown or not currently
stowed item fails with `ItemNotFound`. -/
def retrieveItem (s : EngineState) (iid : Nat) : Except ErrKind EngineState :=
  match s.items.find? (fun it => it.itemId = iid) with
  | none => Except.error ErrKind.itemNotFound
  | some it =>
      if it.status = Status.stowed then
        Except.ok { s with items := updateItem s.items iid retrieveFn,
                           events := ⟨"retrieval", [iid]⟩ :: s.events }
      else Except.error ErrKind.itemNotFound

/-- The per-item effect of temporarily moving a blocking item out during
a retrieval: transient in-transit status, box vacated. -/
def removeFn (it : Item) : Item :=
  { it with status := Status.inTransit, containerId := none, box := none }

def removeItem (s : EngineState) (iid : Nat) : EngineState :=
  { s with items := updateItem s.items iid removeFn }

def removeAll (s : EngineState) (ids : List Nat) : EngineState :=
  ids.foldl removeItem s

/-- One step of the restore plan: re-place a blocking item into its
original box, guarded by the Space Index's `canPlace`. -/
def restoreStep (s : EngineState) (st : Nat × Nat × Box) : Option EngineState :=
  if canPlace s st.2.1 st.1 st.2.2 then
    some { s with items := updateItem s.items st.1 (placeFn st.2.1 st.2.2) }
  else none

def restoreAll (s : EngineState) : List (Nat × Nat × Box) → Option EngineState
  | [] => some s
  | st :: rest => (restoreStep s st).bind (fun s' => restoreAll s' rest)

/-- Record the original (container, box) of a currently stowed item, as
the retrieval plan does before moving it. -/
def captureStep (s : EngineState) (iid : Nat) : Option (Nat × Nat × Box) :=
  (s.items.find? (fun it => it.itemId = iid)).bind (fun it =>
    if it.status = Status.stowed then
      it.containerId.bind (fun cid => it.box.map (fun b => (iid, cid, b)))
    else none)

def captureAll (s : EngineState) : List Nat → Option (List (Nat × Nat × Box))
  | [] => some []
  | i :: is => (captureStep s i).bind (fun st =>
      (captureAll s is).map (fun sts => st :: sts))

/-- Modelled from the spec (§4.2 blockingSet): whether a stowed item
blocks access to the target — its box lies strictly between the
container's open face (`y = 0`) and the target's box along the access
axis, within the target's width/height footprint. -/
def blocks (target : Item) (tb : Box) (it : Item) : Bool :=
  decide (it.itemId ≠ target.itemId) && decide (it.status = Status.stowed) &&
  decide (it.containerId = target.containerId) &&
  (match it.box with
   | some b =>
       decide (b.fin.y ≤ tb.start.y) &&
       decide (b.start.x < tb.fin.x) && decide (tb.start.x < b.fin.x) &&
       decide (b.start.z < tb.fin.z) && decide (tb.start.z < b.fin.z)
   | none => false)

/-- Nearest-face-first order on blocking items (ties by item id). -/
def nearerFace (a b : Item) : Bool :=
  match a.box, b.box with
  | some ba, some bb =>
      decide (ba.start.y < bb.start.y) ||
      (decide (ba.start.y = bb.start.y) && decide (a.itemId ≤ b.itemId))
  | _, _ => true

/-- Modelled from the spec (§4.2): the ordered blocking set of a stowed
target item, nearest-face-first. -/
def blockingSet (s : EngineState) (target : Item) : List Item :=
  match target.box with
  | none => []
  | some tb =>
      (s.items.filter (blocks target tb)).insertionSort
        (fun a b => nearerFace a b = true)

def totalMass (l : List Item) : Nat := (l.map (·.mass)).sum

def itemVolume (it : Item) : Nat := it.width * it.depth * it.height

/-- Modelled from the spec (§4.5 Return plan construction): greedy order —
descending volume-per-mass ratio, ties broken by higher priority, then
item id. -/
def wasteBefore (a b : Item) : Bool :=
  if itemVolume a * b.mass ≠ itemVolume b * a.mass then
    decide (itemVolume b * a.mass < itemVolume a * b.mass)
  else if a.priority ≠ b.priority then decide (b.priority < a.priority)
  else decide (a.itemId ≤ b.itemId)

/-- Modelled from the spec (§4.5): greedy mass-constrained knapsack —
walk the ordered waste list, keeping every item that still fits in the
remaining mass budget. -/
def greedyPick (budget : Nat) : Nat → List Item → List Item
  | _, [] => []
  | acc, it :: rest =>
      if acc + it.mass ≤ budget then it :: greedyPick budget (acc + it.mass) rest
      else greedyPick budget acc rest

def selectForReturn (s : EngineState) (budget : Nat) : List Item :=
  greedyPick budget 0
    ((identifyWasteItems s).insertionSort (fun a b => wasteBefore a b = true))

/-- Modelled from the spec (§4.5, §6 createReturnPlan; the engine's code
is not in the repository, only its caller `handleCreateReturnPlan`):
build a weight-bounded return manifest from the current waste items and
stage it for the undocking container. -/
def createReturnPlan (s : EngineState) (cid date budget : Nat) :
    ReturnManifest × EngineState :=
  let chosen := selectForReturn s budget
  let m : ReturnManifest := ⟨cid, date, budget, chosen.map (·.itemId)⟩
  (m, { s with manifests := m :: s.manifests,
               events := ⟨"returnPlan", chosen.map (·.itemId)⟩ :: s.events })

/-- The per-item effect of completing an undocking with manifest item ids
`ids`: staged waste items transition to disposed and their space is
released. -/
def disposeFn (ids : List Nat) (it : Item) : Item :=
  if it.itemId ∈ ids ∧ it.status = Status.waste then
    { it with status := Status.disposed, containerId := none, box := none }
  else it

/-- Modelled from the spec (§4.5 Completion, §6 completeUndocking; the
engine's code is not in the repository, only its caller
`handleCompleteUndocking`): all waste items staged in the confirmed
manifest for the container transition to disposed; with no pending plan
the operation is a succeeding no-op. -/
def completeUndocking (s : EngineState) (cid ts : Nat) :
    EngineState × List Nat :=
  match s.manifests.find? (fun m => m.undockingContainerId = cid) with
  | none => (s, [])
  | some m =>
      let dids := s.items.filterMap (fun it =>
        if it.itemId ∈ m.itemIds ∧ it.status = Status.waste then some it.itemId
        else none)
      ({ s with items := s.items.map (disposeFn m.itemIds),
                manifests := s.manifests.filter
                  (fun mm => decide (mm.undockingContainerId ≠ cid)),
                events := ⟨"undocking", dids⟩ :: s.events },
       dids)

/-- Modelled from the spec (§4.6 Simulation Clock): the per-item effect
of one simulated day — decrement the usage counter of every item marked
used this day (clamped at zero), then recompute waste status against the
new simulated day. -/
def stepItem (day : Nat) (used : List Nat) (it : Item) : Item :=
  let u' := match it.usageLimit with
    | some u => if it.itemId ∈ used then some (u - 1) else some u
    | none => none
  let it' := { it with usageLimit := u' }
  if it.status ≠ Status.disposed ∧ isWasteItem day it' = true then
    { it' with status := Status.waste }
  else it'

/-- Modelled from the spec (§4.6): advance the clock by one day. -/
def stepDay (used : List Nat) (s : EngineState) : EngineState :=
  { s with currentDay := s.currentDay + 1,
           items := s.items.map (stepItem (s.currentDay + 1) used) }

/-- Pad or truncate the per-day usage lists to exactly `n` days (days
beyond the supplied lists see no usage). -/
def padTo : Nat → List (List Nat) → List (List Nat)
  | 0, _ => []
  | n + 1, [] => [] :: padTo n []
  | n + 1, u :: us => u :: padTo n us

def runDays (s : EngineState) (us : List (List Nat)) : EngineState :=
  us.foldl (fun st u => stepDay u st) s

/-- The ids of the items whose status changed between two snapshots of
the same catalogue (spec §4.6: the operation reports the items whose
status changed). -/
def changedIds (s s' : EngineState) : List Nat :=
  (s.items.zip s'.items).filterMap (fun p =>
    if p.1.status ≠ p.2.status then some p.2.itemId else none)

/-- Modelled from the spec (§4.6, §6 simulateDay; the engine's code is
not in the repository, only its caller `apiService.simulateDay`):
advance the simulated clock by `n` days, applying the per-day usage
lists strictly in order; returns the new snapshot and the change
list. -/
def simulateDay (s : EngineState) (n : Nat) (usage : List (List Nat)) :
    EngineState × List Nat :=
  let s' := runDays s (padTo n usage)
  (s', changedIds s s')

/-- The request built by the Items UI's Simulate button
(src/components/Items.tsx, `handleSimulate`): the chosen number of days
and an itemsToBeUsedPerDay list that is always empty. -/
def handleSimulate (simulationDays : Nat) : SimulationRequest :=
  { numOfDays := simulationDays, itemsToBeUsedPerDay := [] }

/-- The mutating operations of the engine (spec §6). -/
inductive Op where
  | plan (itemId : Nat)
  | place (itemId containerId : Nat) (b : Box)
  | retrieve (itemId : Nat)
  | createPlan (containerId date budget : Nat)
  | undock (containerId timestamp : Nat)
  | advance (n : Nat) (usage : List (List Nat))

/-- Apply a mutating operation to the engine state (failed operations
leave the state unchanged, per the atomicity contract of §7). -/
def applyOp (s : EngineState) : Op → EngineState
  | Op.plan iid => planItem s iid
  | Op.place iid cid b => (runPlaceItem s iid cid b).1
  | Op.retrieve iid =>
      match retrieveItem s iid with
      | Except.ok s' => s'
      | Except.error _ => s
  | Op.createPlan cid date budget => (createReturnPlan s cid date budget).2
  | Op.undock cid ts => (completeUndocking s cid ts).1
  | Op.advance n usage => (simulateDay s n usage).1

/-- Modelled from the spec (§3 Container invariant): in one container the
boxes of all items holding space there are pairwise non-overlapping and
each lies fully within the container's bounds. -/
def containerOk (l : List Item) (c : Container) : Prop :=
  (occEntries l c.containerId).Pairwise noOv ∧
  ∀ e ∈ occEntries l c.containerId, insideContainer c e.2 = true

instance (l : List Item) (c : Container) : Decidable (containerOk l c) :=
  inferInstanceAs (Decidable (_ ∧ _))

/-- The geometric state invariant (spec §8 first property). -/
def containerInvariant (s : EngineState) : Prop :=
  ∀ c ∈ s.containers, containerOk s.items c

instance (s : EngineState) : Decidable (containerInvariant s) :=
  List.decidableBAll _ s.containers

/-- Whether the item's container reference points at an existing
container. -/
def containerRefOkB (s : EngineState) (it : Item) : Bool :=
  match it.containerId with
  | none => true
  | some cid => s.containers.any (fun c => c.containerId = cid)

/-- Basic well-formedness of a state: unique item ids, unique container
ids, and container references of items resolve. -/
def wellFormed (s : EngineState) : Prop :=
  (s.items.map (·.itemId)).Nodup ∧
  (s.containers.map (·.containerId)).Nodup ∧
  ∀ it ∈ s.items, containerRefOkB s it = true

instance (s : EngineState) : Decidable (wellFormed s) :=
  inferInstanceAs (Decidable (_ ∧ _ ∧ _))

theorem containerOk_mono {l l' : List Item} {c : Container}
    (hsub : (occEntries l' c.containerId).Sublist (occEntries l c.containerId))
    (h : containerOk l c) : containerOk l' c :=
  ⟨h.1.sublist hsub, fun e he => h.2 e (hsub.subset he)⟩

/-- Any catalogue-wide item transformation that never lets an item
acquire a box — each item's occupancy entry is either unchanged or
dropped — preserves the container invariant. -/
theorem invariant_map_shrink (s : EngineState) (f : Item → Item)
    (hf : ∀ it ∈ s.items, ∀ cid,
      entryOf cid (f it) = entryOf cid it ∨ entryOf cid (f it) = none)
    (hinv : containerInvariant s) :
    ∀ c ∈ s.containers, containerOk (s.items.map f) c := by
  intro c hc
  exact containerOk_mono
    (occEntries_map_sublist f s.items c.containerId
      (fun it hit => hf it hit c.containerId)) (hinv c hc)

theorem find?_container_eq {s : EngineState} {c c0 : Container}
    (hnd : (s.containers.map (·.containerId)).Nodup)
    (hc : c ∈ s.containers)
    (hfind : s.containers.find? (fun x => x.containerId = c.containerId) = some c0) :
    c0 = c := by
  have hmem : c0 ∈ s.containers := List.mem_of_find?_eq_some hfind
  have hid : c0.containerId = c.containerId := by
    have h := List.find?_some hfind
    simpa using h
  exact List.inj_on_of_nodup_map hnd hmem hc hid

/-- Committing a placement that passed `canPlace` preserves the container
invariant. -/
theorem invariant_commitPlace (s : EngineState) (iid cid : Nat) (b : Box)
    (hwf : wellFormed s) (hinv : containerInvariant s)
    (hcp : canPlace s cid iid b = true) :
    containerInvariant (commitPlace s iid cid b) := by
  obtain ⟨hndI, hndC, _⟩ := hwf
  unfold canPlace at hcp
  cases hfind : s.containers.find? (fun c => c.containerId = cid) with
  | none => rw [hfind] at hcp; cases hcp
  | some c0 =>
      rw [hfind] at hcp
      simp only [Bool.and_eq_true] at hcp
      obtain ⟨hinside, hff⟩ := hcp
      have hfree : ∀ e ∈ occEntries s.items cid, e.1 ≠ iid →
          overlaps b e.2 = false := by
        intro e he hne
        have hall := List.all_eq_true.mp hff e he
        simp only [Bool.or_eq_true] at hall
        rcases hall with h | h
        · exact absurd (of_decide_eq_true h) hne
        · simp only [Bool.not_eq_true'] at h
          exact h
      intro c hc
      show containerOk (updateItem s.items iid (placeFn cid b)) c
      by_cases hcc : c.containerId = cid
      · -- the target container: c coincides with the container found by canPlace
        have hc0mem : c0 ∈ s.containers := List.mem_of_find?_eq_some hfind
        have hc0id : c0.containerId = cid := by
          have h := List.find?_some hfind
          simpa using h
        have hceq : c0 = c :=
          List.inj_on_of_nodup_map hndC hc0mem hc (hc0id.trans hcc.symm)
        have hok := hinv c hc
        constructor
        · rw [hcc]
          exact pairwise_occEntries_updateItem_place s.items iid cid b hndI
            (hcc ▸ hok.1) hfree
        · rw [hcc]
          refine inside_occEntries_updateItem_place s.items iid cid b c
            (fun e he => hok.2 e (hcc ▸ he)) ?_
          rw [← hceq]
          exact hinside
      · -- other containers only shrink
        refine containerOk_mono ?_ (hinv c hc)
        apply occEntries_updateItem_sublist
        intro it
        right
        exact entryOf_placeFn_other c.containerId cid b it hcc

theorem invariant_planItem (s : EngineState) (iid : Nat)
    (hwf : wellFormed s) (hinv : containerInvariant s) :
    containerInvariant (planItem s iid) := by
  unfold planItem
  split
  · exact hinv
  · split
    · split
      · exact hinv
      · next p hcand =>
          have hcp : canPlace s p.1 iid p.2 = true := by
            have h := List.find?_some hcand
            simpa using h
          exact invariant_commitPlace s iid p.1 p.2 hwf hinv hcp
    · exact hinv

theorem invariant_runPlaceItem (s : EngineState) (iid cid : Nat) (b : Box)
    (hwf : wellFormed s) (hinv : containerInvariant s) :
    containerInvariant (runPlaceItem s iid cid b).1 := by
  unfold runPlaceItem placeItemOp
  cases s.items.find? (fun it => it.itemId = iid) with
  | none => exact hinv
  | some _ =>
      cases s.containers.find? (fun c => c.containerId = cid) with
      | none => exact hinv
      | some _ =>
          by_cases hcp : canPlace s cid iid b = true
          · rw [if_pos hcp]
            exact invariant_commitPlace s iid cid b hwf hinv hcp
          · rw [if_neg hcp]
            exact hinv

theorem invariant_updateItem_shrink (s : EngineState) (iid : Nat)
    (g : Item → Item)
    (hg : ∀ it, ∀ cid, entryOf cid (g it) = entryOf cid it ∨
      entryOf cid (g it) = none)
    (hinv : containerInvariant s) :
    ∀ c ∈ s.containers, containerOk (updateItem s.items iid g) c := by
  intro c hc
  refine containerOk_mono ?_ (hinv c hc)
  exact occEntries_updateItem_sublist s.items iid g c.containerId
    (fun it => hg it c.containerId)

theorem entryOf_none_of_containerId_none (cid : Nat) (it : Item)
    (h : it.containerId = none) : entryOf cid it = none := by
  simp [entryOf, h]

theorem invariant_retrieveItem (s : EngineState) (iid : Nat)
    (s' : EngineState) (hok : retrieveItem s iid = Except.ok s')
    (hinv : containerInvariant s) : containerInvariant s' := by
  unfold retrieveItem at hok
  split at hok
  · cases hok
  · split at hok
    · cases hok
      intro c hc
      exact invariant_updateItem_shrink s iid retrieveFn
        (fun j cid => Or.inr (entryOf_none_of_containerId_none cid _ rfl))
        hinv c hc
    · cases hok

theorem invariant_completeUndocking (s : EngineState) (cid ts : Nat)
    (hinv : containerInvariant s) :
    containerInvariant (completeUndocking s cid ts).1 := by
  unfold completeUndocking
  cases s.manifests.find? (fun m => m.undockingContainerId = cid) with
  | none => exact hinv
  | some m =>
      intro c hc
      refine invariant_map_shrink s (disposeFn m.itemIds) ?_ hinv c hc
      intro it _ cid'
      unfold disposeFn
      by_cases h : it.itemId ∈ m.itemIds ∧ it.status = Status.waste
      · rw [if_pos h]
        exact Or.inr (entryOf_none_of_containerId_none cid' _ rfl)
      · rw [if_neg h]
        exact Or.inl rfl

theorem stepItem_containerId (day : Nat) (used : List Nat) (it : Item) :
    (stepItem day used it).containerId = it.containerId := by
  simp only [stepItem]
  split <;> split <;> rfl

theorem stepItem_box (day : Nat) (used : List Nat) (it : Item) :
    (stepItem day used it).box = it.box := by
  simp only [stepItem]
  split <;> split <;> rfl

theorem stepItem_itemId (day : Nat) (used : List Nat) (it : Item) :
    (stepItem day used it).itemId = it.itemId := by
  simp only [stepItem]
  split <;> split <;> rfl

theorem entryOf_stepItem (day : Nat) (used : List Nat) (cid : Nat) (it : Item) :
    entryOf cid (stepItem day used it) = entryOf cid it := by
  unfold entryOf
  rw [stepItem_containerId, stepItem_box, stepItem_itemId]

theorem invariant_stepDay (used : List Nat) (s : EngineState)
    (hinv : containerInvariant s) : containerInvariant (stepDay used s) := by
  intro c hc
  show containerOk (s.items.map (stepItem (s.currentDay + 1) used)) c
  have heq : occEntries (s.items.map (stepItem (s.currentDay + 1) used))
      c.containerId = occEntries s.items c.containerId :=
    occEntries_map_congr _ s.items c.containerId
      (fun it _ => entryOf_stepItem _ used c.containerId it)
  have hok := hinv c hc
  exact ⟨heq ▸ hok.1, fun e he => hok.2 e (heq ▸ he)⟩

theorem invariant_runDays (s : EngineState) (us : List (List Nat))
    (hinv : containerInvariant s) : containerInvariant (runDays s us) := by
  induction us generalizing s with
  | nil => exact hinv
  | cons u us ih =>
      show containerInvariant (runDays (stepDay u s) us)
      have hstep := invariant_stepDay u s hinv
      have : containerInvariant (stepDay u s) := by
        intro c hc
        exact hstep c hc
      exact ih (stepDay u s) this

theorem updateItem_updateItem (l : List Item) (iid : Nat) (f g : Item → Item)
    (hg : ∀ it, (g it).itemId = it.itemId) :
    updateItem (updateItem l iid g) iid f = updateItem l iid (fun it => f (g it)) := by
  induction l with
  | nil => rfl
  | cons a l ih =>
      by_cases ha : a.itemId = iid
      · simp only [updateItem_cons, if_pos ha, if_pos ((hg a).trans ha)]
        rw [ih]
      · simp only [updateItem_cons, if_neg ha]
        rw [ih]

theorem updateItem_eq_self (l : List Item) (iid : Nat) (f : Item → Item)
    (h : ∀ it ∈ l, it.itemId = iid → f it = it) : updateItem l iid f = l := by
  induction l with
  | nil => rfl
  | cons a l ih =>
      rw [updateItem_cons]
      congr 1
      · by_cases ha : a.itemId = iid
        · rw [if_pos ha]; exact h a (List.mem_cons_self a l) ha
        · rw [if_neg ha]
      · exact ih (fun it hm hi => h it (List.mem_cons_of_mem a hm) hi)

theorem wellFormed_removeItem (s : EngineState) (a : Nat) (hwf : wellFormed s) :
    wellFormed (removeItem s a) := by
  obtain ⟨h1, h2, h3⟩ := hwf
  refine ⟨?_, h2, ?_⟩
  · show ((updateItem s.items a removeFn).map (·.itemId)).Nodup
    rw [updateItem_map_id s.items a removeFn (fun it => rfl)]
    exact h1
  · intro it' hmem'
    rcases List.mem_map.mp hmem' with ⟨it, hmem, heq⟩
    by_cases h : it.itemId = a
    · rw [← heq, if_pos h]
      rfl
    · rw [← heq, if_neg h]
      exact h3 it hmem

theorem invariant_removeItem (s : EngineState) (a : Nat)
    (hinv : containerInvariant s) : containerInvariant (removeItem s a) := by
  intro c hc
  exact invariant_updateItem_shrink s a removeFn
    (fun it cid => Or.inr (entryOf_none_of_containerId_none cid _ rfl)) hinv c hc

theorem captureStep_removeItem_ne (s : EngineState) (a j : Nat) (hne : j ≠ a) :
    captureStep (removeItem s a) j = captureStep s j := by
  show ((updateItem s.items a removeFn).find? (fun it => it.itemId = j)).bind _ =
    (s.items.find? (fun it => it.itemId = j)).bind _
  rw [find?_updateItem_ne s.items a j removeFn (fun it => rfl) hne]
  cases hf : s.items.find? (fun it => it.itemId = j) with
  | none => rfl
  | some it =>
      have hij : it.itemId = j := by
        have h := List.find?_some hf
        simpa using h
      rw [Option.map_some', if_neg (fun hc : it.itemId = a => hne (hij ▸ hc))]

theorem captureAll_congr (s1 s2 : EngineState) (ids : List Nat)
    (h : ∀ j ∈ ids, captureStep s1 j = captureStep s2 j) :
    captureAll s1 ids = captureAll s2 ids := by
  induction ids with
  | nil => rfl
  | cons a ids ih =>
      show (captureStep s1 a).bind _ = (captureStep s2 a).bind _
      rw [h a (List.mem_cons_self a ids),
          ih (fun j hj => h j (List.mem_cons_of_mem a hj))]

theorem restoreAll_append (l1 : List (Nat × Nat × Box)) :
    ∀ (s : EngineState) (l2 : List (Nat × Nat × Box)),
    restoreAll s (l1 ++ l2) = (restoreAll s l1).bind (fun t => restoreAll t l2) := by
  induction l1 with
  | nil => intro s l2; rfl
  | cons st l1 ih =>
      intro s l2
      show (restoreStep s st).bind _ = ((restoreStep s st).bind _).bind _
      cases restoreStep s st with
      | none => rfl
      | some s' =>
          rw [Option.some_bind, Option.some_bind]
          exact ih s' l2

theorem canPlace_eq_of_find? {s : EngineState} {cid : Nat} {c0 : Container}
    (hfc : s.containers.find? (fun c => c.containerId = cid) = some c0)
    (iid : Nat) (b : Box) :
    canPlace s cid iid b = (insideContainer c0 b && freeFor s.items cid iid b) := by
  unfold canPlace
  rw [hfc]

/-- The inductive step of the removal/restore round trip: with the head
item's capture analysed, the restore of the head after the round trip of
the tail re-places it feasibly and restores the original state. -/
theorem roundtrip_step (s : EngineState) (a : Nat) (ids : List Nat)
    (steps' : List (Nat × Nat × Box)) (it0 : Item) (cid : Nat) (b : Box)
    (ih : ∀ (s : EngineState) (steps : List (Nat × Nat × Box)),
      wellFormed s → containerInvariant s → ids.Nodup →
      captureAll s ids = some steps →
      restoreAll (removeAll s ids) steps.reverse = some s)
    (hwf : wellFormed s) (hinv : containerInvariant s)
    (hna : a ∉ ids) (hndids : ids.Nodup)
    (hca : captureAll s ids = some steps')
    (hfind : s.items.find? (fun it => it.itemId = a) = some it0)
    (hst : it0.status = Status.stowed)
    (hcid : it0.containerId = some cid)
    (hbox : it0.box = some b) :
    restoreAll (removeAll s (a :: ids)) ((a, cid, b) :: steps').reverse = some s := by
  have hid : it0.itemId = a := by simpa using List.find?_some hfind
  have hmem0 : it0 ∈ s.items := List.mem_of_find?_eq_some hfind
  have hwf1 := wellFormed_removeItem s a hwf
  have hinv1 := invariant_removeItem s a hinv
  have hcap1 : captureAll (removeItem s a) ids = some steps' := by
    rw [captureAll_congr (removeItem s a) s ids
      (fun j hj => captureStep_removeItem_ne s a j (fun hc => hna (hc ▸ hj)))]
    exact hca
  have hIH := ih (removeItem s a) steps' hwf1 hinv1 hndids hcap1
  have hent : entryOf cid it0 = some (a, b) := by
    unfold entryOf
    rw [hcid, if_pos rfl, hbox, Option.map_some', hid]
  have htarget : (a, b) ∈ occEntries s.items cid :=
    List.mem_filterMap.mpr ⟨it0, hmem0, hent⟩
  obtain ⟨hndI, hndC, href⟩ := hwf
  have hany : s.containers.any (fun c => c.containerId = cid) = true := by
    have h := href it0 hmem0
    unfold containerRefOkB at h
    rw [hcid] at h
    exact h
  obtain ⟨c1, hc1mem, hc1id'⟩ := List.any_eq_true.mp hany
  cases hfc : s.containers.find? (fun c => c.containerId = cid) with
  | none =>
      exfalso
      exact List.find?_eq_none.mp hfc c1 hc1mem hc1id'
  | some c0 =>
      have hc0mem : c0 ∈ s.containers := List.mem_of_find?_eq_some hfc
      have hc0id : c0.containerId = cid := by simpa using List.find?_some hfc
      have hfc1 : (removeItem s a).containers.find?
          (fun c => c.containerId = cid) = some c0 := hfc
      have hcanp : canPlace (removeItem s a) cid a b = true := by
        rw [canPlace_eq_of_find? hfc1 a b, Bool.and_eq_true]
        constructor
        · exact (hinv c0 hc0mem).2 (a, b) (hc0id.symm ▸ htarget)
        · apply List.all_eq_true.mpr
          intro e he
          have he' : e ∈ occEntries s.items cid :=
            (occEntries_updateItem_sublist s.items a removeFn cid
              (fun it => Or.inr
                (entryOf_none_of_containerId_none cid _ rfl))).subset he
          by_cases hea : e.1 = a
          · simp [hea]
          · have hne : (a, b) ≠ e := fun hc => hea (by rw [← hc])
            have hpw := (hinv c0 hc0mem).1
            rw [hc0id] at hpw
            have hnoov := List.Pairwise.forall noOv_symm hpw htarget he' hne
            unfold noOv at hnoov
            simp [hea, hnoov]
      have hitems : updateItem (removeItem s a).items a (placeFn cid b) =
          s.items := by
        show updateItem (updateItem s.items a removeFn) a (placeFn cid b) = s.items
        rw [updateItem_updateItem s.items a (placeFn cid b) removeFn (fun it => rfl)]
        apply updateItem_eq_self
        intro it hit hita
        have heq0 : it = it0 :=
          List.inj_on_of_nodup_map hndI hit hmem0 (hita.trans hid.symm)
        subst heq0
        apply Item.ext <;> simp [placeFn, removeFn, hst, hcid, hbox]
      show restoreAll (removeAll (removeItem s a) ids)
        (((a, cid, b) :: steps').reverse) = some s
      rw [List.reverse_cons, restoreAll_append, hIH, Option.some_bind]
      show (restoreStep (removeItem s a) (a, cid, b)).bind
        (fun t => restoreAll t []) = some s
      have hrs : restoreStep (removeItem s a) (a, cid, b) =
          some { removeItem s a with
                 items := updateItem (removeItem s a).items a (placeFn cid b) } := by
        simp only [restoreStep]
        rw [if_pos hcanp]
      rw [hrs, Option.some_bind]
      show some ({ removeItem s a with
        items := updateItem (removeItem s a).items a (placeFn cid b) } :
          EngineState) = some s
      rw [hitems]
      rfl

/-- The removal/restore round trip for an arbitrary list of currently
stowed items: removing them in order and re-placing them in reverse
order into their recorded original boxes passes every `canPlace` check
and restores the exact original state. -/
theorem roundtrip_general (ids : List Nat) :
    ∀ (s : EngineState) (steps : List (Nat × Nat × Box)),
    wellFormed s → containerInvariant s → ids.Nodup →
    captureAll s ids = some steps →
    restoreAll (removeAll s ids) steps.reverse = some s := by
  induction ids with
  | nil =>
      intro s steps hwf hinv hnd hcap
      have hsteps : steps = [] := by
        have : (some [] : Option (List (Nat × Nat × Box))) = some steps := hcap
        exact (Option.some.injEq _ _ ▸ this).symm
      rw [hsteps]
      rfl
  | cons a ids ih =>
      intro s steps hwf hinv hnd hcap
      obtain ⟨hna, hndids⟩ := List.nodup_cons.mp hnd
      have hcap' : (captureStep s a).bind
          (fun st => (captureAll s ids).map (st :: ·)) = some steps := hcap
      cases hcs : captureStep s a with
      | none => rw [hcs, Option.none_bind] at hcap'; cases hcap'
      | some st0 =>
          rw [hcs, Option.some_bind] at hcap'
          cases hca : captureAll s ids with
          | none => rw [hca] at hcap'; cases hcap'
          | some steps' =>
              rw [hca, Option.map_some'] at hcap'
              have hsteps : steps = st0 :: steps' :=
                ((Option.some.injEq _ _ ▸ hcap')).symm
              subst hsteps
              -- analyse the capture of `a`
              have hcs' : (s.items.find? (fun it => it.itemId = a)).bind
                  (fun it => if it.status = Status.stowed then
                    it.containerId.bind (fun cid =>
                      it.box.map (fun b => (a, cid, b)))
                  else none) = some st0 := hcs
              cases hfind : s.items.find? (fun it => it.itemId = a) with
              | none => rw [hfind, Option.none_bind] at hcs'; cases hcs'
              | some it0 =>
                  rw [hfind, Option.some_bind] at hcs'
                  by_cases hst : it0.status = Status.stowed
                  · rw [if_pos hst] at hcs'
                    cases hcid : it0.containerId with
                    | none => rw [hcid, Option.none_bind] at hcs'; cases hcs'
                    | some cid =>
                        rw [hcid, Option.some_bind] at hcs'
                        cases hbox : it0.box with
                        | none => rw [hbox] at hcs'; cases hcs'
                        | some b =>
                            rw [hbox, Option.map_some'] at hcs'
                            have hst0 : st0 = (a, cid, b) :=
                              ((Option.some.injEq _ _ ▸ hcs')).symm
                            subst hst0
                            exact roundtrip_step s a ids steps' it0 cid b ih
                              hwf hinv hna hndids hca hfind hst hcid hbox
                  · rw [if_neg hst] at hcs'; cases hcs'

theorem blocks_props {target : Item} {tb : Box} {it : Item}
    (h : blocks target tb it = true) :
    it.itemId ≠ target.itemId ∧ it.status = Status.stowed ∧
    it.containerId = target.containerId ∧ ∃ b, it.box = some b := by
  unfold blocks at h
  simp only [Bool.and_eq_true, decide_eq_true_eq] at h
  obtain ⟨⟨⟨h1, h2⟩, h3⟩, h4⟩ := h
  refine ⟨h1, h2, h3, ?_⟩
  cases hb : it.box with
  | none => rw [hb] at h4; simp at h4
  | some b => exact ⟨b, rfl⟩

theorem mem_blockingSet_of_box {s : EngineState} {target : Item} {tb : Box}
    (htb : target.box = some tb) {bi : Item} (h : bi ∈ blockingSet s target) :
    bi ∈ s.items ∧ blocks target tb bi = true := by
  unfold blockingSet at h
  rw [htb] at h
  have hperm := List.perm_insertionSort (fun a b => nearerFace a b = true)
    (s.items.filter (blocks target tb))
  have hmem := List.mem_filter.mp (hperm.subset h)
  exact ⟨hmem.1, hmem.2⟩

theorem nodup_blockingSet_ids {s : EngineState} {target : Item} {tb : Box}
    (htb : target.box = some tb)
    (hnd : (s.items.map (·.itemId)).Nodup) :
    ((blockingSet s target).map (·.itemId)).Nodup := by
  unfold blockingSet
  rw [htb]
  have hperm := List.perm_insertionSort (fun a b => nearerFace a b = true)
    (s.items.filter (blocks target tb))
  have hsub : ((s.items.filter (blocks target tb)).map (·.itemId)).Nodup :=
    ((List.filter_sublist s.items).map (·.itemId)).nodup hnd
  exact ((hperm.map (·.itemId)).symm).nodup hsub

theorem captureStep_of_stowed {s : EngineState} {it : Item}
    (hnd : (s.items.map (·.itemId)).Nodup) (hmem : it ∈ s.items)
    (hst : it.status = Status.stowed) {c : Nat} {b : Box}
    (hc : it.containerId = some c) (hb : it.box = some b) :
    captureStep s it.itemId = some (it.itemId, c, b) := by
  show (s.items.find? (fun x => x.itemId = it.itemId)).bind _ = _
  rw [find?_eq_of_mem_nodup hnd hmem, Option.some_bind, if_pos hst, hc,
      Option.some_bind, hb, Option.map_some']

theorem captureAll_of_capturable (s : EngineState) (ids : List Nat)
    (h : ∀ i ∈ ids, ∃ st, captureStep s i = some st) :
    ∃ steps, captureAll s ids = some steps := by
  induction ids with
  | nil => exact ⟨[], rfl⟩
  | cons a ids ih =>
      obtain ⟨st0, hst0⟩ := h a (List.mem_cons_self a ids)
      obtain ⟨steps', hsteps'⟩ := ih (fun i hi => h i (List.mem_cons_of_mem a hi))
      refine ⟨st0 :: steps', ?_⟩
      show (captureStep s a).bind _ = _
      rw [hst0, Option.some_bind, hsteps', Option.map_some']

theorem greedyPick_mass_le (budget : Nat) (l : List Item) :
    ∀ acc : Nat, acc ≤ budget →
      acc + totalMass (greedyPick budget acc l) ≤ budget := by
  induction l with
  | nil =>
      intro acc h
      simpa [greedyPick, totalMass] using h
  | cons it rest ih =>
      intro acc h
      unfold greedyPick
      by_cases hfit : acc + it.mass ≤ budget
      · rw [if_pos hfit]
        have hrec := ih (acc + it.mass) hfit
        simp only [totalMass, List.map_cons, List.sum_cons] at hrec ⊢
        omega
      · rw [if_neg hfit]
        exact ih acc h

theorem padTo_self : ∀ us : List (List Nat), padTo us.length us = us
  | [] => rfl
  | u :: us => by
      show padTo (us.length + 1) (u :: us) = u :: us
      rw [show padTo (us.length + 1) (u :: us) = u :: padTo us.length us from rfl,
          padTo_self us]

theorem runDays_currentDay (us : List (List Nat)) :
    ∀ s : EngineState, (runDays s us).currentDay = s.currentDay + us.length := by
  induction us with
  | nil => intro s; simp [runDays]
  | cons u us ih =>
      intro s
      show (runDays (stepDay u s) us).currentDay = s.currentDay + (us.length + 1)
      rw [ih (stepDay u s)]
      show s.currentDay + 1 + us.length = s.currentDay + (us.length + 1)
      omega

theorem padTo_length : ∀ (n : Nat) (us : List (List Nat)), (padTo n us).length = n
  | 0, _ => rfl
  | n + 1, [] => by
      show ([] :: padTo n []).length = n + 1
      rw [List.length_cons, padTo_length n []]
  | n + 1, u :: us => by
      show (u :: padTo n us).length = n + 1
      rw [List.length_cons, padTo_length n us]

theorem changedIds_self (s : EngineState) : changedIds s s = [] := by
  unfold changedIds
  induction s.items with
  | nil => rfl
  | cons a l ih =>
      show List.filterMap _ ((a, a) :: l.zip l) = []
      rw [List.filterMap_cons]
      simp only [ne_eq, not_true_eq_false, reduceIte]
      exact ih

theorem stepItem_usageLimit_empty (day : Nat) (it : Item) :
    (stepItem day [] it).usageLimit = it.usageLimit := by
  cases hu : it.usageLimit with
  | none =>
      simp only [stepItem, hu]
      split <;> rfl
  | some u =>
      simp only [stepItem, hu, if_neg (List.not_mem_nil it.itemId)]
      split <;> rfl

theorem stepDay_usage_empty (s : EngineState) :
    (stepDay [] s).items.map (·.usageLimit) = s.items.map (·.usageLimit) := by
  show (s.items.map (stepItem (s.currentDay + 1) [])).map (·.usageLimit) =
    s.items.map (·.usageLimit)
  rw [List.map_map]
  apply List.map_congr_left
  intro it _
  exact stepItem_usageLimit_empty (s.currentDay + 1) it

theorem runDays_usage_empty (n : Nat) :
    ∀ s : EngineState, (runDays s (padTo n [])).items.map (·.usageLimit) =
      s.items.map (·.usageLimit) := by
  induction n with
  | zero => intro s; rfl
  | succ n ih =>
      intro s
      show (runDays (stepDay [] s) (padTo n [])).items.map (·.usageLimit) =
        s.items.map (·.usageLimit)
      rw [ih (stepDay [] s), stepDay_usage_empty]

/-- A JavaScript number as produced by the Rearrangement page's
arithmetic: an exact finite value, or one of the non-finite values that
division by zero produces. -/
inductive JsNum where
  | num (q : ℚ)
  | nan
  | posInf
  | negInf
deriving DecidableEq, Repr

/-- A container as the Rearrangement page reads it
(src/pages/Rearrangement.tsx: `container.capacity`,
`container.usedCapacity`). -/
structure RContainer where
  capacity : ℚ
  usedCapacity : ℚ
deriving DecidableEq, Repr

/-- JavaScript division: `0 / 0` is NaN, `x / 0` for `x ≠ 0` is a signed
infinity, finite otherwise. -/
def jsDiv (a b : ℚ) : JsNum :=
  if b = 0 then
    (if a = 0 then JsNum.nan else if 0 < a then JsNum.posInf else JsNum.negInf)
  else JsNum.num (a / b)

/-- Multiplying a JavaScript number by the positive literal 100 (the
`* 100` of the space-percentage computation); NaN propagates. -/
def jsMul100 : JsNum → JsNum
  | JsNum.num q => JsNum.num (q * 100)
  | JsNum.nan => JsNum.nan
  | JsNum.posInf => JsNum.posInf
  | JsNum.negInf => JsNum.negInf

/-- src/pages/Rearrangement.tsx line 25: `containers.reduce((sum, c) =>
sum + c.capacity, 0)`. -/
def totalSpace (containers : List RContainer) : ℚ :=
  containers.foldl (fun sum c => sum + c.capacity) 0

/-- src/pages/Rearrangement.tsx line 26: `containers.reduce((sum, c) =>
sum + c.usedCapacity, 0)`. -/
def usedSpace (containers : List RContainer) : ℚ :=
  containers.foldl (fun sum c => sum + c.usedCapacity) 0

/-- src/pages/Rearrangement.tsx line 28: `(usedSpace / totalSpace) * 100`
with no guard on the divisor. -/
def spacePercentage (containers : List RContainer) : JsNum :=
  jsMul100 (jsDiv (usedSpace containers) (totalSpace containers))

/-- C1: after every mutating operation (planner placement, manual
placeItem, retrieval, undocking completion, clock advance — and return
plan creation), for every container the axis-aligned boxes of all items
occupying it are pairwise non-overlapping and each lies fully within the
container's bounds. -/
theorem mutatingOps_preserve_containerInvariant (s : EngineState) (op : Op)
    (hwf : wellFormed s) (hinv : containerInvariant s) :
    containerInvariant (applyOp s op) := by
  cases op with
  | plan iid => exact invariant_planItem s iid hwf hinv
  | place iid cid b => exact invariant_runPlaceItem s iid cid b hwf hinv
  | retrieve iid =>
      show containerInvariant
        (match retrieveItem s iid with
         | Except.ok s' => s'
         | Except.error _ => s)
      cases hr : retrieveItem s iid with
      | ok s' => exact invariant_retrieveItem s iid s' hr hinv
      | error e => exact hinv
  | createPlan cid date budget => exact fun c hc => hinv c hc
  | undock cid ts => exact invariant_completeUndocking s cid ts hinv
  | advance n usage => exact invariant_runDays s (padTo n usage) hinv

def w1Container : Container :=
  { containerId := 1, zone := "A", width := 10, depth := 10, height := 10 }

def w1Stowed : Item :=
  { itemId := 1, name := "", width := 2, depth := 2, height := 2, mass := 1,
    priority := 1, expiryDate := none, usageLimit := none,
    preferredZone := none, status := Status.stowed, containerId := some 1,
    box := some ⟨⟨0, 0, 0⟩, ⟨2, 2, 2⟩⟩ }

def w1Free : Item :=
  { itemId := 2, name := "", width := 2, depth := 2, height := 2, mass := 1,
    priority := 1, expiryDate := none, usageLimit := none,
    preferredZone := none, status := Status.unplaced, containerId := none,
    box := none }

def w1State : EngineState :=
  { items := [w1Stowed, w1Free], containers := [w1Container],
    currentDay := 0, manifests := [], events := [] }

/-- Witness for C1: the invariant survives a concrete manual placement
into a concrete well-formed state. -/
theorem mutatingOps_preserve_containerInvariant_witness :
    containerInvariant
      (applyOp w1State (Op.place 2 1 ⟨⟨4, 0, 0⟩, ⟨6, 2, 2⟩⟩)) :=
  mutatingOps_preserve_containerInvariant w1State
    (Op.place 2 1 ⟨⟨4, 0, 0⟩, ⟨6, 2, 2⟩⟩) (by decide) (by decide)

/-- C2: an item of the catalogue is returned by `identifyWasteItems` iff
its expiry date is at or before the current simulated day or its usage
limit has reached zero; in particular every expired item is classified
waste regardless of its usage-limit value. -/
theorem identifyWasteItems_spec (s : EngineState) (it : Item)
    (hmem : it ∈ s.items) :
    (it ∈ identifyWasteItems s ↔
      (∃ d, it.expiryDate = some d ∧ d ≤ s.currentDay) ∨
        it.usageLimit = some 0) ∧
    (∀ d, it.expiryDate = some d → d ≤ s.currentDay →
      it ∈ identifyWasteItems s) := by
  have hiff : isWasteItem s.currentDay it = true ↔
      ((∃ d, it.expiryDate = some d ∧ d ≤ s.currentDay) ∨
        it.usageLimit = some 0) := by
    unfold isWasteItem
    cases hex : it.expiryDate with
    | none => simp
    | some d => simp
  refine ⟨⟨?_, ?_⟩, ?_⟩
  · intro h
    exact hiff.mp (List.mem_filter.mp h).2
  · intro h
    exact List.mem_filter.mpr ⟨hmem, hiff.mpr h⟩
  · intro d hd hle
    exact List.mem_filter.mpr ⟨hmem, hiff.mpr (Or.inl ⟨d, hd, hle⟩)⟩

def w2Expired : Item :=
  { itemId := 3, name := "", width := 1, depth := 1, height := 1, mass := 1,
    priority := 1, expiryDate := some 2, usageLimit := some 7,
    preferredZone := none, status := Status.stowed, containerId := some 1,
    box := some ⟨⟨0, 0, 0⟩, ⟨1, 1, 1⟩⟩ }

def w2State : EngineState :=
  { items := [w2Expired], containers := [w1Container], currentDay := 5,
    manifests := [], events := [] }

/-- Witness for C2: a concrete expired item with a positive usage limit
is classified waste. -/
theorem identifyWasteItems_spec_witness :
    w2Expired ∈ identifyWasteItems w2State :=
  (identifyWasteItems_spec w2State w2Expired (by decide)).2 2 rfl (by decide)

/-- C3: a return manifest built by `createReturnPlan` carries exactly the
greedily selected waste items, whose total mass never exceeds the
supplied budget; and `completeUndocking` disposes only items listed in
the confirmed manifest of the undocking container (with no pending
manifest it disposes nothing). -/
theorem returnPlan_budget_undock_scope (s : EngineState)
    (cid date budget ucid ts : Nat) :
    totalMass (selectForReturn s budget) ≤ budget ∧
    (createReturnPlan s cid date budget).1.itemIds =
      (selectForReturn s budget).map (·.itemId) ∧
    (∀ m, s.manifests.find? (fun mm => mm.undockingContainerId = ucid) =
        some m →
      (∀ i ∈ (completeUndocking s ucid ts).2, i ∈ m.itemIds) ∧
      (∀ it ∈ s.items, (disposeFn m.itemIds it).status = Status.disposed →
        it.status = Status.disposed ∨ it.itemId ∈ m.itemIds)) ∧
    (s.manifests.find? (fun mm => mm.undockingContainerId = ucid) = none →
      (completeUndocking s ucid ts).2 = []) := by
  refine ⟨?_, rfl, ?_, ?_⟩
  · have h := greedyPick_mass_le budget
      ((identifyWasteItems s).insertionSort (fun a b => wasteBefore a b = true))
      0 (Nat.zero_le budget)
    simpa [selectForReturn] using h
  · intro m hm
    constructor
    · intro i hi
      have h2 : (completeUndocking s ucid ts).2 = s.items.filterMap (fun it =>
          if it.itemId ∈ m.itemIds ∧ it.status = Status.waste then
            some it.itemId
          else none) := by
        unfold completeUndocking
        rw [hm]
      rw [h2] at hi
      rcases List.mem_filterMap.mp hi with ⟨it, hit, hif⟩
      by_cases hc : it.itemId ∈ m.itemIds ∧ it.status = Status.waste
      · rw [if_pos hc] at hif
        cases hif
        exact hc.1
      · rw [if_neg hc] at hif
        cases hif
    · intro it hit hdisp
      by_cases hc : it.itemId ∈ m.itemIds ∧ it.status = Status.waste
      · exact Or.inr hc.1
      · left
        have : disposeFn m.itemIds it = it := by
          unfold disposeFn
          rw [if_neg hc]
        rw [this] at hdisp
        exact hdisp
  · intro hnone
    unfold completeUndocking
    rw [hnone]

def w3Waste : Item :=
  { itemId := 4, name := "", width := 2, depth := 2, height := 2, mass := 6,
    priority := 1, expiryDate := some 0, usageLimit := none,
    preferredZone := none, status := Status.waste, containerId := some 1,
    box := some ⟨⟨0, 0, 0⟩, ⟨2, 2, 2⟩⟩ }

def w3Manifest : ReturnManifest :=
  { undockingContainerId := 1, undockingDate := 9, maxWeight := 10,
    itemIds := [4] }

def w3State : EngineState :=
  { items := [w3Waste], containers := [w1Container], currentDay := 3,
    manifests := [w3Manifest], events := [] }

/-- Witness for C3: at a concrete state the greedy selection respects a
concrete budget and a concretely disposed item is listed in the
manifest. -/
theorem returnPlan_budget_undock_scope_witness :
    totalMass (selectForReturn w3State 10) ≤ 10 ∧ (4 : Nat) ∈ w3Manifest.itemIds :=
  ⟨(returnPlan_budget_undock_scope w3State 1 9 10 1 9).1,
   ((returnPlan_budget_undock_scope w3State 1 9 10 1 9).2.2.1 w3Manifest
     (by decide)).1 4 (by decide)⟩

/-- C4: advancing the clock once with `N ≥ 1` days and per-day usage
lists yields exactly the state produced by `N` successive single-day
`simulateDay` calls applied strictly in order (in particular the final
item statuses agree). -/
theorem simulateDay_multi_eq_singles (s : EngineState)
    (us : List (List Nat)) (n : Nat) (hn : n = us.length) (hpos : 1 ≤ n) :
    (simulateDay s n us).1 =
      us.foldl (fun st u => (simulateDay st 1 [u]).1) s := by
  subst hn
  have hfun : (fun (st : EngineState) (u : List Nat) =>
      (simulateDay st 1 [u]).1) = (fun st u => stepDay u st) := rfl
  rw [hfun]
  show runDays s (padTo us.length us) = us.foldl (fun st u => stepDay u st) s
  rw [padTo_self us]
  rfl

def w4Item : Item :=
  { itemId := 5, name := "", width := 1, depth := 1, height := 1, mass := 1,
    priority := 1, expiryDate := some 1, usageLimit := some 2,
    preferredZone := none, status := Status.stowed, containerId := some 1,
    box := some ⟨⟨0, 0, 0⟩, ⟨1, 1, 1⟩⟩ }

def w4State : EngineState :=
  { items := [w4Item], containers := [w1Container], currentDay := 0,
    manifests := [], events := [] }

/-- Witness for C4: a concrete two-day simulation equals the two
corresponding single-day calls. -/
theorem simulateDay_multi_eq_singles_witness :
    (simulateDay w4State 2 [[5], []]).1 =
      [[5], []].foldl (fun st u => (simulateDay st 1 [u]).1) w4State :=
  simulateDay_multi_eq_singles w4State [[5], []] 2 rfl (by decide)

/-- C5: for a stowed target item, removing its blocking set
(nearest-face-first) and then the target itself, and restoring the moved
items in reverse removal order into their recorded original boxes, is
feasible at every restore step (every `canPlace` check passes) and
returns the engine to exactly the occupancy state before retrieval. -/
theorem retrieval_blocking_roundtrip (s : EngineState) (target : Item)
    (tc : Nat) (tb : Box)
    (hwf : wellFormed s) (hinv : containerInvariant s)
    (hmem : target ∈ s.items) (hst : target.status = Status.stowed)
    (htc : target.containerId = some tc) (htb : target.box = some tb) :
    ∃ steps,
      captureAll s
        ((blockingSet s target).map (·.itemId) ++ [target.itemId]) =
          some steps ∧
      restoreAll
        (removeAll s
          ((blockingSet s target).map (·.itemId) ++ [target.itemId]))
        steps.reverse = some s := by
  have hcap : ∀ i ∈ (blockingSet s target).map (·.itemId) ++ [target.itemId],
      ∃ st, captureStep s i = some st := by
    intro i hi
    rcases List.mem_append.mp hi with hi | hi
    · rcases List.mem_map.mp hi with ⟨bi, hbi, rfl⟩
      obtain ⟨hbmem, hblocks⟩ := mem_blockingSet_of_box htb hbi
      obtain ⟨hne, hbst, hbcid, bb, hbb⟩ := blocks_props hblocks
      exact ⟨(bi.itemId, tc, bb),
        captureStep_of_stowed hwf.1 hbmem hbst (hbcid.trans htc) hbb⟩
    · rcases List.mem_singleton.mp hi with rfl
      exact ⟨(target.itemId, tc, tb),
        captureStep_of_stowed hwf.1 hmem hst htc htb⟩
  obtain ⟨steps, hsteps⟩ := captureAll_of_capturable s _ hcap
  refine ⟨steps, hsteps, ?_⟩
  refine roundtrip_general _ s steps hwf hinv ?_ hsteps
  rw [List.nodup_append]
  refine ⟨nodup_blockingSet_ids htb hwf.1, List.nodup_singleton _, ?_⟩
  intro x hx hx2
  rcases List.mem_map.mp hx with ⟨bi, hbi, rfl⟩
  exact (blocks_props (mem_blockingSet_of_box htb hbi).2).1
    (List.mem_singleton.mp hx2)

def w5Target : Item :=
  { itemId := 1, name := "", width := 2, depth := 2, height := 2, mass := 1,
    priority := 1, expiryDate := none, usageLimit := none,
    preferredZone := none, status := Status.stowed, containerId := some 1,
    box := some ⟨⟨0, 4, 0⟩, ⟨2, 6, 2⟩⟩ }

def w5Blocker : Item :=
  { itemId := 2, name := "", width := 2, depth := 2, height := 2, mass := 1,
    priority := 1, expiryDate := none, usageLimit := none,
    preferredZone := none, status := Status.stowed, containerId := some 1,
    box := some ⟨⟨0, 0, 0⟩, ⟨2, 2, 2⟩⟩ }

def w5State : EngineState :=
  { items := [w5Target, w5Blocker], containers := [w1Container],
    currentDay := 0, manifests := [], events := [] }

/-- Witness for C5: a concrete target with one concrete blocking item
between it and the access face round-trips to the original state. -/
theorem retrieval_blocking_roundtrip_witness :
    ∃ steps,
      captureAll w5State
        ((blockingSet w5State w5Target).map (·.itemId) ++ [w5Target.itemId]) =
          some steps ∧
      restoreAll
        (removeAll w5State
          ((blockingSet w5State w5Target).map (·.itemId) ++ [w5Target.itemId]))
        steps.reverse = some w5State :=
  retrieval_blocking_roundtrip w5State w5Target 1 ⟨⟨0, 4, 0⟩, ⟨2, 6, 2⟩⟩
    (by decide) (by decide) (by decide) rfl rfl rfl

/-- C6: executing `retrieveItem` on a stowed item with a positive usage
counter succeeds, transitions the item out of its box with status
in-transit, decrements the usage counter by exactly one, marks the item
waste exactly when the counter reaches zero — and a `usageLimit = 1`
item retrieved once is then returned by `identifyWasteItems` even
without any expiry hypothesis. -/
theorem retrieveItem_effects (s : EngineState) (it : Item) (u : Nat)
    (hnd : (s.items.map (·.itemId)).Nodup)
    (hmem : it ∈ s.items) (hst : it.status = Status.stowed)
    (hu : it.usageLimit = some (u + 1)) :
    ∃ s', retrieveItem s it.itemId = Except.ok s' ∧
      retrieveFn it ∈ s'.items ∧
      (retrieveFn it).usageLimit = some u ∧
      (retrieveFn it).status =
        (if u = 0 then Status.waste else Status.inTransit) ∧
      (u = 0 → retrieveFn it ∈ identifyWasteItems s') := by
  have hfind := find?_eq_of_mem_nodup hnd hmem
  have hulim : (retrieveFn it).usageLimit = some u := by
    simp [retrieveFn, hu]
  have hstatus : (retrieveFn it).status =
      (if u = 0 then Status.waste else Status.inTransit) := by
    simp [retrieveFn, hu]
  have heq : retrieveItem s it.itemId =
      Except.ok { s with items := updateItem s.items it.itemId retrieveFn,
                         events := ⟨"retrieval", [it.itemId]⟩ :: s.events } := by
    unfold retrieveItem
    simp only [hfind]
    rw [if_pos hst]
  refine ⟨_, heq, ?_, hulim, hstatus, ?_⟩
  · have h : (if it.itemId = it.itemId then retrieveFn it else it) ∈
        updateItem s.items it.itemId retrieveFn :=
      List.mem_map_of_mem _ hmem
    rw [if_pos rfl] at h
    exact h
  · intro h0
    apply List.mem_filter.mpr
    constructor
    · have h : (if it.itemId = it.itemId then retrieveFn it else it) ∈
          updateItem s.items it.itemId retrieveFn :=
        List.mem_map_of_mem _ hmem
      rw [if_pos rfl] at h
      exact h
    · unfold isWasteItem
      rw [hulim, h0]
      simp

def w6Item : Item :=
  { itemId := 6, name := "", width := 1, depth := 1, height := 1, mass := 1,
    priority := 1, expiryDate := none, usageLimit := some 1,
    preferredZone := none, status := Status.stowed, containerId := some 1,
    box := some ⟨⟨0, 0, 0⟩, ⟨1, 1, 1⟩⟩ }

def w6State : EngineState :=
  { items := [w6Item], containers := [w1Container], currentDay := 0,
    manifests := [], events := [] }

/-- Witness for C6: retrieving a concrete `usageLimit = 1`, non-expired
item drops its counter to zero, marks it waste and surfaces it in
`identifyWasteItems`. -/
theorem retrieveItem_effects_witness :
    ∃ s', retrieveItem w6State w6Item.itemId = Except.ok s' ∧
      retrieveFn w6Item ∈ s'.items ∧
      (retrieveFn w6Item).usageLimit = some 0 ∧
      (retrieveFn w6Item).status =
        (if 0 = 0 then Status.waste else Status.inTransit) ∧
      (0 = 0 → retrieveFn w6Item ∈ identifyWasteItems s') :=
  retrieveItem_effects w6State w6Item 0 (by decide) (by decide) rfl rfl

/-- C7: `placeItem` is atomic — every failing call returns the state
exactly unchanged (no geometry, status or event-stream update), and in
particular a colliding manual placement on an existing item and
container is rejected with `OverlapViolation` and the state is
untouched. -/
theorem placeItem_atomic (s : EngineState) (iid cid : Nat) (b : Box) :
    (∀ e, (runPlaceItem s iid cid b).2 = some e →
      (runPlaceItem s iid cid b).1 = s) ∧
    ((s.items.find? (fun it => it.itemId = iid)).isSome = true →
     (s.containers.find? (fun c => c.containerId = cid)).isSome = true →
     canPlace s cid iid b = false →
     runPlaceItem s iid cid b = (s, some ErrKind.overlapViolation)) := by
  constructor
  · intro e he
    unfold runPlaceItem at he ⊢
    cases hpo : placeItemOp s iid cid b with
    | ok s' => rw [hpo] at he; cases he
    | error er => rfl
  · intro hit hct hcp
    unfold runPlaceItem placeItemOp
    cases hf1 : s.items.find? (fun it => it.itemId = iid) with
    | none => rw [hf1] at hit; cases hit
    | some it1 =>
        cases hf2 : s.containers.find? (fun c => c.containerId = cid) with
        | none => rw [hf2] at hct; cases hct
        | some c1 =>
            rw [if_neg (by rw [hcp]; exact Bool.false_ne_true)]

def w7State : EngineState :=
  { items := [w5Target, w5Blocker], containers := [w1Container],
    currentDay := 0, manifests := [], events := [] }

/-- Witness for C7: a concrete manual placement colliding with a stowed
item is rejected with `OverlapViolation` and the state is returned
unchanged. -/
theorem placeItem_atomic_witness :
    runPlaceItem w7State 1 1 ⟨⟨0, 0, 0⟩, ⟨2, 2, 2⟩⟩ =
      (w7State, some ErrKind.overlapViolation) :=
  (placeItem_atomic w7State 1 1 ⟨⟨0, 0, 0⟩, ⟨2, 2, 2⟩⟩).2
    (by decide) (by decide) (by decide)

/-- C8: `simulateDay` is total over every requested number of days —
the clock advances by exactly `n` — and `N = 0` is a succeeding no-op:
the state is returned unchanged with an empty change list. -/
theorem simulateDay_zero_noop_and_total (s : EngineState)
    (us : List (List Nat)) :
    simulateDay s 0 us = (s, []) ∧
    ∀ (n : Nat) (us' : List (List Nat)),
      ((simulateDay s n us').1).currentDay = s.currentDay + n := by
  constructor
  · have h : simulateDay s 0 us = (s, changedIds s s) := rfl
    rw [h, changedIds_self]
  · intro n us'
    show (runDays s (padTo n us')).currentDay = s.currentDay + n
    rw [runDays_currentDay, padTo_length]

/-- C9: the Rearrangement page's space-usage percentage is the unguarded
`(usedSpace / totalSpace) * 100`: on the empty containers list the
division is `0 / 0` and the result is NaN, while any containers list of
positive total capacity yields a well-defined finite number. -/
theorem spacePercentage_nan_on_empty (cs : List RContainer) :
    spacePercentage ([] : List RContainer) = JsNum.nan ∧
    (0 < totalSpace cs →
      spacePercentage cs = JsNum.num (usedSpace cs / totalSpace cs * 100)) := by
  constructor
  · rfl
  · intro h
    have hne : totalSpace cs ≠ 0 := ne_of_gt h
    simp [spacePercentage, jsDiv, hne, jsMul100]

/-- Witness for C9: a concrete one-container list with positive capacity
yields a finite percentage. -/
theorem spacePercentage_nan_on_empty_witness :
    spacePercentage [⟨10, 5⟩] =
      JsNum.num (usedSpace [⟨10, 5⟩] / totalSpace [⟨10, 5⟩] * 100) :=
  (spacePercentage_nan_on_empty [⟨10, 5⟩]).2 (by norm_num [totalSpace])

/-- C10: the Items UI's Simulate button always sends
`itemsToBeUsedPerDay = []`, so a simulation triggered through this
interface, for any number of days, never changes any item's usage
counter. -/
theorem ui_simulate_request_no_usage (s : EngineState) (n : Nat) :
    (handleSimulate n).itemsToBeUsedPerDay = [] ∧
    ((simulateDay s (handleSimulate n).numOfDays
        (handleSimulate n).itemsToBeUsedPerDay).1).items.map (·.usageLimit) =
      s.items.map (·.usageLimit) := by
  refine ⟨rfl, ?_⟩
  show (runDays s (padTo n [])).items.map (·.usageLimit) =
    s.items.map (·.usageLimit)
  exact runDays_usage_empty n s

end Cargo
